import Mathlib

/-!
Shallow embedding of the `runtime-memory-cache` package: the
`RuntimeMemoryCache` class (src `RuntimeMemoryCache.set/get/has/del/clear/
cleanup/getStats/resetStats/evictEntry/updateStats`), the `CacheUtils` and
`ValidationUtils` helpers from `src/utils.ts`, and the `StatsTracker` from
`src/stats.ts`.

The JS `Map<string, CacheEntry>` is modelled as an association list in
insertion order: `Map.set` on a present key replaces the entry in place
(iteration order kept), on an absent key appends at the end; `Map.delete`
removes the pair.  `Date.now()` becomes an explicit `now : Int` argument of
each operation.  Fallible operations return `Except CacheError`.
-/

set_option autoImplicit false

deriving instance DecidableEq for Except

namespace RuntimeMemoryCache

/-- Eviction policies supported by the cache (`src/types`). -/
inductive EvictionPolicy where
  | FIFO
  | LRU
deriving DecidableEq

/-- `CacheEntry` from `src/types`: value, optional expiry timestamp, creation
timestamp and last-access timestamp (all timestamps are `Date.now()`
milliseconds). -/
structure CacheEntry (V : Type) where
  value : V
  expiresAt : Option Int
  createdAt : Int
  lastAccessedAt : Int
deriving DecidableEq

/-- `CacheStats` record kept by `StatsTracker` (`src/stats.ts`). -/
structure CacheStats where
  hits : Nat
  misses : Nat
  size : Nat
  maxSize : Nat
  evictions : Nat
deriving DecidableEq

/-- The state of a `RuntimeMemoryCache` instance: the ordered store plus the
immutable configuration and the optional stats tracker. -/
structure Cache (V : Type) where
  store : List (String × CacheEntry V)
  maxSize : Nat
  ttl : Option Int
  evictionPolicy : EvictionPolicy
  statsTracker : Option CacheStats
deriving DecidableEq

/-- Errors thrown by `ValidationUtils` (`src/utils.ts`); the non-string key
and non-finite TTL cases are unrepresentable in the typed embedding. -/
inductive CacheError where
  | emptyKey
  | keyTooLong
  | negativeTTL
deriving DecidableEq

variable {V : Type}

/-- JS `Map.prototype.get`: entry of the first pair carrying the key. -/
def mapGet (s : List (String × CacheEntry V)) (k : String) : Option (CacheEntry V) :=
  match s with
  | [] => none
  | kv :: rest => if kv.1 = k then some kv.2 else mapGet rest k

/-- JS `Map.prototype.has` on the raw store. -/
def containsKey (s : List (String × CacheEntry V)) (k : String) : Bool :=
  (mapGet s k).isSome

/-- JS `Map.prototype.set`: replace in place when the key is present
(iteration order kept), otherwise append at the most-recent end. -/
def mapSet (s : List (String × CacheEntry V)) (k : String) (e : CacheEntry V) :
    List (String × CacheEntry V) :=
  match s with
  | [] => [(k, e)]
  | kv :: rest => if kv.1 = k then (k, e) :: rest else kv :: mapSet rest k e

/-- JS `Map.prototype.delete`: drop the pair carrying the key. -/
def mapDelete (s : List (String × CacheEntry V)) (k : String) :
    List (String × CacheEntry V) :=
  match s with
  | [] => []
  | kv :: rest => if kv.1 = k then rest else kv :: mapDelete rest k

/-- `Number.MAX_SAFE_INTEGER`, the start value of the LRU scan in
`CacheUtils.getKeyToEvict`. -/
def maxSafeInteger : Int := 9007199254740991

/-- `CacheUtils.isExpired`: `expiresAt !== undefined && expiresAt < Date.now()`. -/
def isExpired (e : CacheEntry V) (now : Int) : Bool :=
  match e.expiresAt with
  | some t => decide (t < now)
  | none => false

/-- `CacheUtils.calculateExpiresAt`. -/
def calculateExpiresAt (ttl : Option Int) (defaultTtl : Option Int) (now : Int) :
    Option Int :=
  match ttl with
  | some t => some (now + t)
  | none =>
    match defaultTtl with
    | some t => some (now + t)
    | none => none

/-- `CacheUtils.createEntry`: fresh entry with `createdAt = lastAccessedAt = now`. -/
def createEntry (v : V) (expiresAt : Option Int) (now : Int) : CacheEntry V :=
  { value := v, expiresAt := expiresAt, createdAt := now, lastAccessedAt := now }

/-- Loop body of the LRU scan in `CacheUtils.getKeyToEvict`:
`if (entry.lastAccessedAt < oldestAccessTime) { oldestAccessTime = ...; lruKey = key; }`. -/
def lruStep (acc : Option String × Int) (kv : String × CacheEntry V) :
    Option String × Int :=
  if kv.2.lastAccessedAt < acc.2 then (some kv.1, kv.2.lastAccessedAt) else acc

/-- `CacheUtils.getKeyToEvict`: FIFO takes the first key in iteration order;
LRU scans every entry for the smallest `lastAccessedAt`, starting the scan
from `Number.MAX_SAFE_INTEGER` with a strict comparison. -/
def getKeyToEvict (s : List (String × CacheEntry V)) (p : EvictionPolicy) :
    Option String :=
  if s.length = 0 then none
  else
    match p with
    | .FIFO => s.head?.map Prod.fst
    | .LRU => (s.foldl lruStep ((none : Option String), maxSafeInteger)).1

/-- `CacheUtils.cleanupExpired`: remove every expired entry, returning the
removal count together with the remaining store. -/
def cleanupExpired (s : List (String × CacheEntry V)) (now : Int) :
    Nat × List (String × CacheEntry V) :=
  match s with
  | [] => (0, [])
  | kv :: rest =>
    let r := cleanupExpired rest now
    if isExpired kv.2 now then (r.1 + 1, r.2) else (r.1, kv :: r.2)

/-- `ValidationUtils.validateKey` (the non-string branch is unrepresentable). -/
def validateKey (k : String) : Except CacheError Unit :=
  if k.length = 0 then .error .emptyKey
  else if k.length > 250 then .error .keyTooLong
  else .ok ()

/-- `ValidationUtils.validateTTL` (the non-finite branch is unrepresentable). -/
def validateTTL (t : Int) : Except CacheError Unit :=
  if t < 0 then .error .negativeTTL else .ok ()

/-- The `set` path validates the TTL only when one was passed. -/
def validateTTLOpt (t : Option Int) : Except CacheError Unit :=
  match t with
  | some t0 => validateTTL t0
  | none => .ok ()

/-- `StatsTracker.recordHit` lifted through the optional tracker. -/
def recordHit (c : Cache V) : Cache V :=
  { c with statsTracker := c.statsTracker.map (fun s => { s with hits := s.hits + 1 }) }

/-- `StatsTracker.recordMiss` lifted through the optional tracker. -/
def recordMiss (c : Cache V) : Cache V :=
  { c with statsTracker := c.statsTracker.map (fun s => { s with misses := s.misses + 1 }) }

/-- `StatsTracker.recordEviction` lifted through the optional tracker. -/
def recordEviction (c : Cache V) : Cache V :=
  { c with statsTracker :=
      c.statsTracker.map (fun s => { s with evictions := s.evictions + 1 }) }

/-- `RuntimeMemoryCache.updateStats`: `statsTracker?.updateSize(store.size)`. -/
def updateStats (c : Cache V) : Cache V :=
  { c with statsTracker := c.statsTracker.map (fun s => { s with size := c.store.length }) }

/-- `RuntimeMemoryCache.size`. -/
def size (c : Cache V) : Nat := c.store.length

/-- `RuntimeMemoryCache.keys`. -/
def keys (c : Cache V) : List String := c.store.map Prod.fst

/-- `RuntimeMemoryCache.evictEntry`: pick a victim by policy, delete it and
record the eviction; a `undefined` victim leaves the store untouched. -/
def evictEntry (c : Cache V) : Cache V :=
  match getKeyToEvict c.store c.evictionPolicy with
  | some k => recordEviction { c with store := mapDelete c.store k }
  | none => c

/-- `isUpdate` of `RuntimeMemoryCache.set`: the key has a live (non-expired)
entry in the store. -/
def isLive (c : Cache V) (k : String) (now : Int) : Bool :=
  match mapGet c.store k with
  | some e => !(isExpired e now)
  | none => false

/-- The mutating body of `RuntimeMemoryCache.set`, reached once both
validations passed: decide update-vs-insert from the liveness of the existing
entry, evict when a non-update meets a full store, then write the entry (LRU
moves an updated key to the most-recent end) and refresh the size gauge. -/
def setBody (c : Cache V) (k : String) (v : V) (ttl : Option Int) (now : Int) :
    Cache V :=
  let expiresAt := calculateExpiresAt ttl c.ttl now
  match mapGet c.store k with
  | some old =>
    if isExpired old now then
      let c1 := if c.maxSize ≤ c.store.length then evictEntry c else c
      updateStats { c1 with store := mapSet c1.store k (createEntry v expiresAt now) }
    else
      let entry : CacheEntry V :=
        { value := v, expiresAt := expiresAt, createdAt := old.createdAt,
          lastAccessedAt := now }
      let base := if c.evictionPolicy = .LRU then mapDelete c.store k else c.store
      updateStats { c with store := mapSet base k entry }
  | none =>
    let c1 := if c.maxSize ≤ c.store.length then evictEntry c else c
    updateStats { c1 with store := mapSet c1.store k (createEntry v expiresAt now) }

/-- `RuntimeMemoryCache.set`: validate key and TTL first (throwing leaves the
store untouched), then run the mutating body. -/
def set (c : Cache V) (k : String) (v : V) (ttl : Option Int) (now : Int) :
    Except CacheError (Cache V) :=
  match validateKey k with
  | .error e => .error e
  | .ok _ =>
    match validateTTLOpt ttl with
    | .error e => .error e
    | .ok _ => .ok (setBody c k v ttl now)

/-- `RuntimeMemoryCache.get`: invalid keys degrade to `undefined` without
stats; an expired entry is lazily deleted and recorded as a miss; a live hit
touches the entry, reorders under LRU, and records a hit. -/
def get (c : Cache V) (k : String) (now : Int) : Option V × Cache V :=
  match validateKey k with
  | .error _ => (none, c)
  | .ok _ =>
    match mapGet c.store k with
    | none => (none, recordMiss c)
    | some entry =>
      if isExpired entry now then
        (none, updateStats (recordMiss { c with store := mapDelete c.store k }))
      else
        let touched := { entry with lastAccessedAt := now }
        let store1 := mapSet c.store k touched
        let store2 :=
          if c.evictionPolicy = .LRU then mapSet (mapDelete store1 k) k touched else store1
        (some entry.value, recordHit { c with store := store2 })

/-- `RuntimeMemoryCache.has` as implemented: same expiration/touch behaviour
as `get` but without hit/miss recording.  The source signature takes only the
key — there is no `skipTouch` parameter, only a TODO comment about one — so a
live hit always touches and reorders. -/
def has (c : Cache V) (k : String) (now : Int) : Bool × Cache V :=
  match validateKey k with
  | .error _ => (false, c)
  | .ok _ =>
    match mapGet c.store k with
    | none => (false, c)
    | some entry =>
      if isExpired entry now then
        (false, updateStats { c with store := mapDelete c.store k })
      else
        let touched := { entry with lastAccessedAt := now }
        let store1 := mapSet c.store k touched
        let store2 :=
          if c.evictionPolicy = .LRU then mapSet (mapDelete store1 k) k touched else store1
        (true, { c with store := store2 })

/-- `RuntimeMemoryCache.del`. -/
def del (c : Cache V) (k : String) : Bool × Cache V :=
  match validateKey k with
  | .error _ => (false, c)
  | .ok _ =>
    if containsKey c.store k then (true, updateStats { c with store := mapDelete c.store k })
    else (false, c)

/-- `RuntimeMemoryCache.clear`. -/
def clear (c : Cache V) : Cache V :=
  updateStats { c with store := [] }

/-- `RuntimeMemoryCache.cleanup`: eager sweep; the size gauge is refreshed
only when something was removed. -/
def cleanup (c : Cache V) (now : Int) : Nat × Cache V :=
  let r := cleanupExpired c.store now
  if 0 < r.1 then (r.1, updateStats { c with store := r.2 }) else (r.1, c)

/-- `RuntimeMemoryCache.getStats`: the snapshot, or `null` when disabled. -/
def getStats (c : Cache V) : Option CacheStats :=
  c.statsTracker

/-- `RuntimeMemoryCache.resetStats` via `StatsTracker.reset`: zero the three
counters, keep `size` and `maxSize`. -/
def resetStats (c : Cache V) : Cache V :=
  { c with statsTracker :=
      c.statsTracker.map (fun s => { s with hits := 0, misses := 0, evictions := 0 }) }

/-- One `set` call of a run: key, value, optional TTL and the call time. -/
structure SetOp (V : Type) where
  key : String
  value : V
  ttl : Option Int
  now : Int
deriving DecidableEq

/-- Execute one `set` call; a thrown validation error leaves the state as the
caller had it. -/
def applySet (c : Cache V) (op : SetOp V) : Cache V :=
  match set c op.key op.value op.ttl op.now with
  | .ok c' => c'
  | .error _ => c

/-- Execute a sequence of `set` calls. -/
def runSets (c : Cache V) (ops : List (SetOp V)) : Cache V :=
  ops.foldl applySet c

/-- Observer: the `hits` counter, when statistics are enabled. -/
def hitsOf (c : Cache V) : Option Nat :=
  c.statsTracker.map CacheStats.hits

/-- Observer: the `misses` counter, when statistics are enabled. -/
def missesOf (c : Cache V) : Option Nat :=
  c.statsTracker.map CacheStats.misses

/-- Observer: the `evictions` counter, when statistics are enabled. -/
def evictionsOf (c : Cache V) : Option Nat :=
  c.statsTracker.map CacheStats.evictions

/-! ### Lemmas about the JS-Map model -/

theorem mapGet_mapSet_self (s : List (String × CacheEntry V)) (k : String) (e : CacheEntry V) :
    mapGet (mapSet s k e) k = some e := by
  induction s with
  | nil => simp [mapGet, mapSet]
  | cons kv rest ih =>
    by_cases h : kv.1 = k
    · simp [mapGet, mapSet, h]
    · simp [mapGet, mapSet, h, ih]

theorem mapGet_mapSet_ne (s : List (String × CacheEntry V)) (k k' : String) (e : CacheEntry V)
    (h : k' ≠ k) : mapGet (mapSet s k e) k' = mapGet s k' := by
  induction s with
  | nil => simp [mapGet, mapSet, Ne.symm h]
  | cons kv rest ih =>
    by_cases hk : kv.1 = k
    · simp [mapGet, mapSet, hk, Ne.symm h]
    · by_cases hk' : kv.1 = k'
      · simp [mapGet, mapSet, hk, hk', h]
      · simp [mapGet, mapSet, hk, hk', ih]

theorem mapGet_mapDelete_ne (s : List (String × CacheEntry V)) (k k' : String)
    (h : k' ≠ k) : mapGet (mapDelete s k) k' = mapGet s k' := by
  induction s with
  | nil => simp [mapDelete]
  | cons kv rest ih =>
    by_cases hk : kv.1 = k
    · simp [mapDelete, mapGet, hk, Ne.symm h]
    · by_cases hk' : kv.1 = k'
      · simp [mapDelete, mapGet, hk, hk', h]
      · simp [mapDelete, mapGet, hk, hk', ih]

theorem mapSet_length_of_contains (s : List (String × CacheEntry V)) (k : String)
    (e : CacheEntry V) (h : containsKey s k = true) :
    (mapSet s k e).length = s.length := by
  induction s with
  | nil => simp [containsKey, mapGet] at h
  | cons kv rest ih =>
    by_cases hk : kv.1 = k
    · simp [mapSet, hk]
    · simp [containsKey, mapGet, hk] at h
      simp [mapSet, hk, ih h]

theorem mapSet_length_le (s : List (String × CacheEntry V)) (k : String) (e : CacheEntry V) :
    (mapSet s k e).length ≤ s.length + 1 := by
  induction s with
  | nil => simp [mapSet]
  | cons kv rest ih =>
    by_cases hk : kv.1 = k
    · simp [mapSet, hk]
    · simp only [mapSet, hk, if_false, List.length_cons]
      omega

theorem mapSet_append_of_not_contains (s : List (String × CacheEntry V)) (k : String)
    (e : CacheEntry V) (h : containsKey s k = false) :
    mapSet s k e = s ++ [(k, e)] := by
  induction s with
  | nil => simp [mapSet]
  | cons kv rest ih =>
    by_cases hk : kv.1 = k
    · simp [containsKey, mapGet, hk] at h
    · simp [containsKey, mapGet, hk] at h
      simp [mapSet, hk, ih (by simp [containsKey, h])]

theorem mapDelete_length_of_contains (s : List (String × CacheEntry V)) (k : String)
    (h : containsKey s k = true) :
    (mapDelete s k).length + 1 = s.length := by
  induction s with
  | nil => simp [containsKey, mapGet] at h
  | cons kv rest ih =>
    by_cases hk : kv.1 = k
    · simp [mapDelete, hk]
    · simp only [containsKey, mapGet, hk, if_false] at h
      simp only [mapDelete, hk, if_false, List.length_cons]
      have := ih h
      omega

theorem mapDelete_eq_of_not_contains (s : List (String × CacheEntry V)) (k : String)
    (h : containsKey s k = false) :
    mapDelete s k = s := by
  induction s with
  | nil => simp [mapDelete]
  | cons kv rest ih =>
    by_cases hk : kv.1 = k
    · simp [containsKey, mapGet, hk] at h
    · simp [containsKey, mapGet, hk] at h
      simp [mapDelete, hk, ih (by simp [containsKey, h])]

theorem mem_of_mem_mapDelete (s : List (String × CacheEntry V)) (k : String)
    (kv : String × CacheEntry V) (h : kv ∈ mapDelete s k) : kv ∈ s := by
  induction s with
  | nil => simp [mapDelete] at h
  | cons kv0 rest ih =>
    by_cases hk : kv0.1 = k
    · simp only [mapDelete, hk, if_true] at h
      exact List.mem_cons_of_mem kv0 h
    · simp only [mapDelete, hk, if_false, List.mem_cons] at h
      rcases h with h | h
      · exact h ▸ List.mem_cons_self kv0 rest
      · exact List.mem_cons_of_mem kv0 (ih h)

theorem mem_of_mem_mapSet (s : List (String × CacheEntry V)) (k : String) (e : CacheEntry V)
    (kv : String × CacheEntry V) (h : kv ∈ mapSet s k e) : kv ∈ s ∨ kv = (k, e) := by
  induction s with
  | nil => simp [mapSet] at h; exact Or.inr h
  | cons kv0 rest ih =>
    by_cases hk : kv0.1 = k
    · simp only [mapSet, hk, if_true, List.mem_cons] at h
      rcases h with h | h
      · exact Or.inr h
      · exact Or.inl (List.mem_cons_of_mem kv0 h)
    · simp only [mapSet, hk, if_false, List.mem_cons] at h
      rcases h with h | h
      · exact Or.inl (h ▸ List.mem_cons_self kv0 rest)
      · rcases ih h with h2 | h2
        · exact Or.inl (List.mem_cons_of_mem kv0 h2)
        · exact Or.inr h2

theorem containsKey_of_mem (s : List (String × CacheEntry V)) (k : String) (e : CacheEntry V)
    (h : (k, e) ∈ s) : containsKey s k = true := by
  induction s with
  | nil => simp at h
  | cons kv rest ih =>
    rcases List.mem_cons.mp h with h1 | h1
    · simp [containsKey, mapGet, ← h1]
    · by_cases hk : kv.1 = k
      · simp [containsKey, mapGet, hk]
      · simpa [containsKey, mapGet, hk] using ih h1

theorem mem_of_mapGet_eq_some (s : List (String × CacheEntry V)) (k : String) (e : CacheEntry V)
    (h : mapGet s k = some e) : (k, e) ∈ s := by
  induction s with
  | nil => simp [mapGet] at h
  | cons kv rest ih =>
    by_cases hk : kv.1 = k
    · simp only [mapGet, if_pos hk, Option.some_inj] at h
      have hkv : kv = (k, e) := Prod.ext hk h
      exact List.mem_cons.mpr (Or.inl hkv.symm)
    · simp only [mapGet, hk, if_false] at h
      exact List.mem_cons_of_mem kv (ih h)

theorem keys_mapSet_of_contains (s : List (String × CacheEntry V)) (k : String)
    (e : CacheEntry V) (h : containsKey s k = true) :
    (mapSet s k e).map Prod.fst = s.map Prod.fst := by
  induction s with
  | nil => simp [containsKey, mapGet] at h
  | cons kv rest ih =>
    by_cases hk : kv.1 = k
    · simp [mapSet, hk]
    · simp [containsKey, mapGet, hk] at h
      simp [mapSet, hk, ih h]

theorem mapDelete_mapSet_self (s : List (String × CacheEntry V)) (k : String)
    (e : CacheEntry V) : mapDelete (mapSet s k e) k = mapDelete s k := by
  induction s with
  | nil => simp [mapSet, mapDelete]
  | cons kv rest ih =>
    by_cases hk : kv.1 = k
    · simp [mapSet, mapDelete, hk]
    · simp [mapSet, mapDelete, hk, ih]

theorem mapGet_append_single_ne (s : List (String × CacheEntry V)) (k k' : String)
    (e : CacheEntry V) (h : k' ≠ k) :
    mapGet (s ++ [(k, e)]) k' = mapGet s k' := by
  induction s with
  | nil => simp [mapGet, Ne.symm h]
  | cons kv rest ih =>
    by_cases hk : kv.1 = k'
    · simp [mapGet, hk]
    · simp [mapGet, hk, ih]

theorem mapGet_append_single_self (s : List (String × CacheEntry V)) (k : String)
    (e : CacheEntry V) (h : containsKey s k = false) :
    mapGet (s ++ [(k, e)]) k = some e := by
  rw [← mapSet_append_of_not_contains s k e h]
  exact mapGet_mapSet_self s k e

theorem lruFold_spec (s : List (String × CacheEntry V)) :
    ∀ acc : Option String × Int,
      (s.foldl lruStep acc = acc ∧ ∀ kv ∈ s, acc.2 ≤ kv.2.lastAccessedAt) ∨
      (∃ kv, kv ∈ s ∧
        (s.foldl lruStep acc).1 = some kv.1 ∧
        (s.foldl lruStep acc).2 = kv.2.lastAccessedAt ∧
        (s.foldl lruStep acc).2 < acc.2 ∧
        ∀ kv' ∈ s, (s.foldl lruStep acc).2 ≤ kv'.2.lastAccessedAt) := by
  induction s with
  | nil =>
    intro acc
    exact Or.inl ⟨rfl, by simp⟩
  | cons kv rest ih =>
    intro acc
    rw [List.foldl_cons]
    by_cases hlt : kv.2.lastAccessedAt < acc.2
    · have hstep : lruStep acc kv = (some kv.1, kv.2.lastAccessedAt) := by
        simp [lruStep, hlt]
      rw [hstep]
      rcases ih (some kv.1, kv.2.lastAccessedAt) with ⟨heq, hall⟩ | ⟨kv0, hmem, h1, h2, h3, h4⟩
      · right
        refine ⟨kv, List.mem_cons_self kv rest, ?_, ?_, ?_, ?_⟩
        · rw [heq]
        · rw [heq]
        · rw [heq]; exact hlt
        · intro kv' hkv'
          rw [heq]
          rcases List.mem_cons.mp hkv' with h | h
          · rw [h]
          · exact hall kv' h
      · right
        refine ⟨kv0, List.mem_cons_of_mem kv hmem, h1, h2, ?_, ?_⟩
        · exact lt_trans h3 hlt
        · intro kv' hkv'
          rcases List.mem_cons.mp hkv' with h | h
          · rw [h]; exact le_of_lt h3
          · exact h4 kv' h
    · have hstep : lruStep acc kv = acc := by
        simp [lruStep, hlt]
      rw [hstep]
      rcases ih acc with ⟨heq, hall⟩ | ⟨kv0, hmem, h1, h2, h3, h4⟩
      · left
        refine ⟨heq, ?_⟩
        intro kv' hkv'
        rcases List.mem_cons.mp hkv' with h | h
        · rw [h]; exact le_of_not_lt hlt
        · exact hall kv' h
      · right
        refine ⟨kv0, List.mem_cons_of_mem kv hmem, h1, h2, h3, ?_⟩
        intro kv' hkv'
        rcases List.mem_cons.mp hkv' with h | h
        · rw [h]
          exact le_of_lt (lt_of_lt_of_le h3 (le_of_not_lt hlt))
        · exact h4 kv' h

theorem getKeyToEvict_lru (s : List (String × CacheEntry V)) (hne : s ≠ [])
    (hwf : ∀ kv ∈ s, kv.2.lastAccessedAt < maxSafeInteger) :
    ∃ k e, getKeyToEvict s .LRU = some k ∧ (k, e) ∈ s ∧
      ∀ kv ∈ s, e.lastAccessedAt ≤ kv.2.lastAccessedAt := by
  have hlen : ¬ s.length = 0 := by
    simpa [List.length_eq_zero] using hne
  rcases lruFold_spec s ((none : Option String), maxSafeInteger)
      with ⟨heq, hall⟩ | ⟨kv0, hmem, h1, h2, h3, h4⟩
  · exfalso
    obtain ⟨kv, hkv⟩ := List.exists_mem_of_ne_nil s hne
    exact absurd (hall kv hkv) (not_le.mpr (hwf kv hkv))
  · refine ⟨kv0.1, kv0.2, ?_, hmem, ?_⟩
    · simp only [getKeyToEvict, hlen, if_false]
      exact h1
    · intro kv hkv
      exact h2 ▸ h4 kv hkv

theorem getKeyToEvict_fifo (s : List (String × CacheEntry V)) (hne : s ≠ []) :
    ∃ k, getKeyToEvict s .FIFO = some k ∧ containsKey s k = true := by
  have hlen : ¬ s.length = 0 := by
    simpa [List.length_eq_zero] using hne
  match s, hne with
  | kv :: rest, _ =>
    refine ⟨kv.1, ?_, ?_⟩
    · simp [getKeyToEvict]
    · exact containsKey_of_mem _ kv.1 kv.2 (List.mem_cons_self kv rest)

theorem getKeyToEvict_contains (s : List (String × CacheEntry V)) (p : EvictionPolicy)
    (k : String) (h : getKeyToEvict s p = some k) : containsKey s k = true := by
  match p with
  | .FIFO =>
    match s with
    | [] => simp [getKeyToEvict] at h
    | kv :: rest =>
      simp only [getKeyToEvict, List.length_cons, List.head?_cons, Option.map_some] at h
      have : kv.1 = k := by
        simpa using h
      exact this ▸ containsKey_of_mem _ kv.1 kv.2 (List.mem_cons_self kv rest)
  | .LRU =>
    match s with
    | [] => simp [getKeyToEvict] at h
    | kv :: rest =>
      rcases lruFold_spec (kv :: rest) ((none : Option String), maxSafeInteger)
          with ⟨heq, _⟩ | ⟨kv0, hmem, h1, _, _, _⟩
      · simp only [getKeyToEvict, List.length_cons] at h
        rw [heq] at h
        simp at h
      · simp only [getKeyToEvict, List.length_cons] at h
        rw [h1] at h
        have : kv0.1 = k := by simpa using h
        exact this ▸ containsKey_of_mem _ kv0.1 kv0.2 hmem

theorem not_contains_mapDelete_of_nodup (s : List (String × CacheEntry V)) (k : String)
    (hnd : (s.map Prod.fst).Nodup) : containsKey (mapDelete s k) k = false := by
  induction s with
  | nil => simp [mapDelete, containsKey, mapGet]
  | cons kv rest ih =>
    simp only [List.map_cons, List.nodup_cons] at hnd
    by_cases hk : kv.1 = k
    · simp only [mapDelete, hk, if_true]
      rcases h2 : containsKey rest k with _ | _
      · rfl
      · exfalso
        rcases Option.isSome_iff_exists.mp h2 with ⟨e, he⟩
        have := mem_of_mapGet_eq_some rest k e he
        exact hnd.1 (hk ▸ List.mem_map_of_mem Prod.fst this)
    · simp only [mapDelete, hk, if_false, containsKey, mapGet, if_neg hk]
      exact ih hnd.2

/-! ### Small facts about the stats wrappers and eviction -/

@[simp] theorem updateStats_store (c : Cache V) : (updateStats c).store = c.store := rfl

@[simp] theorem updateStats_maxSize (c : Cache V) : (updateStats c).maxSize = c.maxSize := rfl

@[simp] theorem updateStats_ttl (c : Cache V) : (updateStats c).ttl = c.ttl := rfl

@[simp] theorem updateStats_policy (c : Cache V) :
    (updateStats c).evictionPolicy = c.evictionPolicy := rfl

@[simp] theorem recordHit_store (c : Cache V) : (recordHit c).store = c.store := rfl

@[simp] theorem recordHit_maxSize (c : Cache V) : (recordHit c).maxSize = c.maxSize := rfl

@[simp] theorem recordHit_ttl (c : Cache V) : (recordHit c).ttl = c.ttl := rfl

@[simp] theorem recordHit_policy (c : Cache V) :
    (recordHit c).evictionPolicy = c.evictionPolicy := rfl

@[simp] theorem recordMiss_store (c : Cache V) : (recordMiss c).store = c.store := rfl

@[simp] theorem recordMiss_maxSize (c : Cache V) : (recordMiss c).maxSize = c.maxSize := rfl

@[simp] theorem recordMiss_ttl (c : Cache V) : (recordMiss c).ttl = c.ttl := rfl

@[simp] theorem recordMiss_policy (c : Cache V) :
    (recordMiss c).evictionPolicy = c.evictionPolicy := rfl

@[simp] theorem recordEviction_store (c : Cache V) :
    (recordEviction c).store = c.store := rfl

@[simp] theorem recordEviction_maxSize (c : Cache V) :
    (recordEviction c).maxSize = c.maxSize := rfl

@[simp] theorem recordEviction_ttl (c : Cache V) : (recordEviction c).ttl = c.ttl := rfl

@[simp] theorem recordEviction_policy (c : Cache V) :
    (recordEviction c).evictionPolicy = c.evictionPolicy := rfl

@[simp] theorem evictionsOf_updateStats (c : Cache V) :
    evictionsOf (updateStats c) = evictionsOf c := by
  cases h : c.statsTracker <;> simp [evictionsOf, updateStats, h]

@[simp] theorem evictionsOf_recordHit (c : Cache V) :
    evictionsOf (recordHit c) = evictionsOf c := by
  cases h : c.statsTracker <;> simp [evictionsOf, recordHit, h]

@[simp] theorem evictionsOf_recordMiss (c : Cache V) :
    evictionsOf (recordMiss c) = evictionsOf c := by
  cases h : c.statsTracker <;> simp [evictionsOf, recordMiss, h]

@[simp] theorem hitsOf_updateStats (c : Cache V) :
    hitsOf (updateStats c) = hitsOf c := by
  cases h : c.statsTracker <;> simp [hitsOf, updateStats, h]

@[simp] theorem hitsOf_recordMiss (c : Cache V) :
    hitsOf (recordMiss c) = hitsOf c := by
  cases h : c.statsTracker <;> simp [hitsOf, recordMiss, h]

@[simp] theorem hitsOf_recordEviction (c : Cache V) :
    hitsOf (recordEviction c) = hitsOf c := by
  cases h : c.statsTracker <;> simp [hitsOf, recordEviction, h]

@[simp] theorem missesOf_updateStats (c : Cache V) :
    missesOf (updateStats c) = missesOf c := by
  cases h : c.statsTracker <;> simp [missesOf, updateStats, h]

@[simp] theorem missesOf_recordHit (c : Cache V) :
    missesOf (recordHit c) = missesOf c := by
  cases h : c.statsTracker <;> simp [missesOf, recordHit, h]

@[simp] theorem missesOf_recordEviction (c : Cache V) :
    missesOf (recordEviction c) = missesOf c := by
  cases h : c.statsTracker <;> simp [missesOf, recordEviction, h]

theorem evictEntry_maxSize (c : Cache V) : (evictEntry c).maxSize = c.maxSize := by
  cases h : getKeyToEvict c.store c.evictionPolicy <;> simp [evictEntry, h]

theorem evictEntry_ttl (c : Cache V) : (evictEntry c).ttl = c.ttl := by
  cases h : getKeyToEvict c.store c.evictionPolicy <;> simp [evictEntry, h]

theorem evictEntry_policy (c : Cache V) :
    (evictEntry c).evictionPolicy = c.evictionPolicy := by
  cases h : getKeyToEvict c.store c.evictionPolicy <;> simp [evictEntry, h]

theorem evictEntry_store_sub (c : Cache V) (kv : String × CacheEntry V)
    (h : kv ∈ (evictEntry c).store) : kv ∈ c.store := by
  cases hk : getKeyToEvict c.store c.evictionPolicy with
  | none => simpa [evictEntry, hk] using h
  | some k =>
    simp only [evictEntry, hk, recordEviction_store] at h
    exact mem_of_mem_mapDelete c.store k kv h

/-- When the store is nonempty and (for LRU) its access times are below
`Number.MAX_SAFE_INTEGER`, `evictEntry` removes exactly one entry. -/
theorem evictEntry_size (c : Cache V) (hne : c.store ≠ [])
    (hwf : ∀ kv ∈ c.store, kv.2.lastAccessedAt < maxSafeInteger) :
    size (evictEntry c) + 1 = size c := by
  have hvictim : ∃ k, getKeyToEvict c.store c.evictionPolicy = some k := by
    cases hp : c.evictionPolicy with
    | FIFO =>
      obtain ⟨k, hk, _⟩ := getKeyToEvict_fifo c.store hne
      exact ⟨k, hk⟩
    | LRU =>
      obtain ⟨k, e, hk, _, _⟩ := getKeyToEvict_lru c.store hne hwf
      exact ⟨k, hk⟩
  obtain ⟨k, hk⟩ := hvictim
  have hck := getKeyToEvict_contains c.store c.evictionPolicy k hk
  simp only [evictEntry, hk, size, recordEviction_store]
  exact mapDelete_length_of_contains c.store k hck

/-! ### Lemmas about `cleanupExpired` -/

theorem cleanupExpired_snd_clean (s : List (String × CacheEntry V)) (now : Int) :
    ∀ kv ∈ (cleanupExpired s now).2, isExpired kv.2 now = false := by
  induction s with
  | nil =>
    intro kv h
    simp [cleanupExpired] at h
  | cons kv0 rest ih =>
    intro kv h
    cases hb : isExpired kv0.2 now with
    | true =>
      simp only [cleanupExpired, hb, if_true] at h
      exact ih kv h
    | false =>
      simp [cleanupExpired, hb] at h
      rcases h with h1 | h1
      · rw [h1]
        exact hb
      · exact ih kv h1

theorem cleanupExpired_of_clean (s : List (String × CacheEntry V)) (now : Int)
    (h : ∀ kv ∈ s, isExpired kv.2 now = false) :
    cleanupExpired s now = (0, s) := by
  induction s with
  | nil => rfl
  | cons kv rest ih =>
    have h0 : isExpired kv.2 now = false := h kv (List.mem_cons_self kv rest)
    have hr := ih (fun kv' hkv' => h kv' (List.mem_cons_of_mem kv hkv'))
    simp [cleanupExpired, h0, hr]

theorem cleanupExpired_fst_zero (s : List (String × CacheEntry V)) (now : Int)
    (h : (cleanupExpired s now).1 = 0) :
    (cleanupExpired s now).2 = s := by
  induction s with
  | nil => rfl
  | cons kv rest ih =>
    cases hb : isExpired kv.2 now with
    | true =>
      simp only [cleanupExpired, hb, if_true] at h
      exact absurd h (Nat.succ_ne_zero _)
    | false =>
      simp only [cleanupExpired, hb, Bool.false_eq_true, if_false] at h ⊢
      rw [ih h]

/-! ### The `set` body: characterization, configuration, size bound -/

/-- A `set` call of a key with no live entry runs the insert path: eviction
check, then a fresh entry is written. -/
theorem setBody_eq_insert (c : Cache V) (k : String) (v : V) (ttl : Option Int) (now : Int)
    (hni : isLive c k now = false) :
    setBody c k v ttl now =
      updateStats { (if c.maxSize ≤ c.store.length then evictEntry c else c) with
        store := mapSet (if c.maxSize ≤ c.store.length then evictEntry c else c).store k
          (createEntry v (calculateExpiresAt ttl c.ttl now) now) } := by
  cases hg : mapGet c.store k with
  | none => simp [setBody, hg]
  | some old =>
    have he : isExpired old now = true := by
      simpa [isLive, hg] using hni
    simp [setBody, hg, he]

/-- A `set` call of a key with a live entry runs the update path: no eviction,
`createdAt` preserved, LRU moves the key to the most-recent end. -/
theorem setBody_eq_update (c : Cache V) (k : String) (v : V) (ttl : Option Int) (now : Int)
    (old : CacheEntry V) (hg : mapGet c.store k = some old)
    (he : isExpired old now = false) :
    setBody c k v ttl now =
      updateStats { c with
        store := mapSet (if c.evictionPolicy = .LRU then mapDelete c.store k else c.store) k
          { value := v, expiresAt := calculateExpiresAt ttl c.ttl now,
            createdAt := old.createdAt, lastAccessedAt := now } } := by
  simp [setBody, hg, he]

theorem live_cases (c : Cache V) (k : String) (now : Int) (hl : isLive c k now = true) :
    ∃ old, mapGet c.store k = some old ∧ isExpired old now = false := by
  cases hg : mapGet c.store k with
  | none => simp [isLive, hg] at hl
  | some old =>
    refine ⟨old, rfl, ?_⟩
    simpa [isLive, hg] using hl

theorem setBody_maxSize (c : Cache V) (k : String) (v : V) (ttl : Option Int) (now : Int) :
    (setBody c k v ttl now).maxSize = c.maxSize := by
  cases hl : isLive c k now with
  | true =>
    obtain ⟨old, hg, he⟩ := live_cases c k now hl
    rw [setBody_eq_update c k v ttl now old hg he]
    simp
  | false =>
    rw [setBody_eq_insert c k v ttl now hl]
    split <;> simp [evictEntry_maxSize]

theorem setBody_ttl (c : Cache V) (k : String) (v : V) (ttl : Option Int) (now : Int) :
    (setBody c k v ttl now).ttl = c.ttl := by
  cases hl : isLive c k now with
  | true =>
    obtain ⟨old, hg, he⟩ := live_cases c k now hl
    rw [setBody_eq_update c k v ttl now old hg he]
    simp
  | false =>
    rw [setBody_eq_insert c k v ttl now hl]
    split <;> simp [evictEntry_ttl]

theorem setBody_policy (c : Cache V) (k : String) (v : V) (ttl : Option Int) (now : Int) :
    (setBody c k v ttl now).evictionPolicy = c.evictionPolicy := by
  cases hl : isLive c k now with
  | true =>
    obtain ⟨old, hg, he⟩ := live_cases c k now hl
    rw [setBody_eq_update c k v ttl now old hg he]
    simp
  | false =>
    rw [setBody_eq_insert c k v ttl now hl]
    split <;> simp [evictEntry_policy]

/-- Access times stay below `Number.MAX_SAFE_INTEGER`. -/
def WFAccess (c : Cache V) : Prop :=
  ∀ kv ∈ c.store, kv.2.lastAccessedAt < maxSafeInteger

theorem setBody_size_le (c : Cache V) (k : String) (v : V) (ttl : Option Int) (now : Int)
    (hmax : 1 ≤ c.maxSize) (hsize : size c ≤ c.maxSize) (hwf : WFAccess c) :
    size (setBody c k v ttl now) ≤ c.maxSize := by
  cases hl : isLive c k now with
  | true =>
    obtain ⟨old, hg, he⟩ := live_cases c k now hl
    rw [setBody_eq_update c k v ttl now old hg he]
    have hck : containsKey c.store k = true := by
      simp [containsKey, hg]
    simp only [size, updateStats_store]
    by_cases hp : c.evictionPolicy = .LRU
    · rw [if_pos hp]
      have h1 := mapDelete_length_of_contains c.store k hck
      have h2 := mapSet_length_le (mapDelete c.store k) k
        { value := v, expiresAt := calculateExpiresAt ttl c.ttl now,
          createdAt := old.createdAt, lastAccessedAt := now }
      simp only [size] at hsize
      omega
    · rw [if_neg hp]
      rw [mapSet_length_of_contains c.store k _ hck]
      exact hsize
  | false =>
    rw [setBody_eq_insert c k v ttl now hl]
    simp only [size, updateStats_store]
    by_cases hfull : c.maxSize ≤ c.store.length
    · rw [if_pos hfull]
      have hlen : c.store.length = c.maxSize := le_antisymm hsize hfull
      have hne : c.store ≠ [] := by
        intro hnil
        rw [hnil] at hlen
        simp only [List.length_nil] at hlen
        omega
      have hdec := evictEntry_size c hne hwf
      have h2 := mapSet_length_le (evictEntry c).store k
        (createEntry v (calculateExpiresAt ttl c.ttl now) now)
      simp only [size] at hdec
      omega
    · rw [if_neg hfull]
      have h2 := mapSet_length_le c.store k
        (createEntry v (calculateExpiresAt ttl c.ttl now) now)
      simp only [size] at hsize
      omega

theorem setBody_wf (c : Cache V) (k : String) (v : V) (ttl : Option Int) (now : Int)
    (hwf : WFAccess c) (hnow : now < maxSafeInteger) :
    WFAccess (setBody c k v ttl now) := by
  intro kv hkv
  have hbase : ∀ s1 : List (String × CacheEntry V),
      (∀ kv' ∈ s1, kv'.2.lastAccessedAt < maxSafeInteger) →
      ∀ e : CacheEntry V, e.lastAccessedAt = now →
      kv ∈ mapSet s1 k e → kv.2.lastAccessedAt < maxSafeInteger := by
    intro s1 hs1 e hee hmem
    rcases mem_of_mem_mapSet s1 k e kv hmem with h | h
    · exact hs1 kv h
    · rw [h]
      simpa [hee] using hnow
  cases hl : isLive c k now with
  | true =>
    obtain ⟨old, hg, he⟩ := live_cases c k now hl
    rw [setBody_eq_update c k v ttl now old hg he] at hkv
    simp only [updateStats_store] at hkv
    by_cases hp : c.evictionPolicy = .LRU
    · rw [if_pos hp] at hkv
      exact hbase (mapDelete c.store k)
        (fun kv' h => hwf kv' (mem_of_mem_mapDelete c.store k kv' h)) _ rfl hkv
    · rw [if_neg hp] at hkv
      exact hbase c.store hwf _ rfl hkv
  | false =>
    rw [setBody_eq_insert c k v ttl now hl] at hkv
    simp only [updateStats_store] at hkv
    by_cases hfull : c.maxSize ≤ c.store.length
    · rw [if_pos hfull] at hkv
      exact hbase (evictEntry c).store
        (fun kv' h => hwf kv' (evictEntry_store_sub c kv' h)) _ rfl hkv
    · rw [if_neg hfull] at hkv
      exact hbase c.store hwf _ rfl hkv

/-! ### Run invariant for sequences of `set` calls -/

theorem set_ok_of_valid (c : Cache V) (k : String) (v : V) (ttl : Option Int) (now : Int)
    (hk : validateKey k = .ok ()) (ht : validateTTLOpt ttl = .ok ()) :
    set c k v ttl now = .ok (setBody c k v ttl now) := by
  unfold set
  rw [hk, ht]

theorem applySet_cases (c : Cache V) (op : SetOp V) :
    applySet c op = setBody c op.key op.value op.ttl op.now ∨ applySet c op = c := by
  unfold applySet set
  cases validateKey op.key with
  | error e => right; rfl
  | ok u =>
    cases validateTTLOpt op.ttl with
    | error e => right; rfl
    | ok u2 => left; rfl

/-- Invariant carried along a run of `set` calls: the configured capacity is
`m`, the store is within capacity, and access times are realistic. -/
def CacheInv (m : Nat) (c : Cache V) : Prop :=
  c.maxSize = m ∧ size c ≤ m ∧ WFAccess c

theorem applySet_inv (m : Nat) (hm : 1 ≤ m) (c : Cache V) (op : SetOp V)
    (hc : CacheInv m c) (hnow : op.now < maxSafeInteger) :
    CacheInv m (applySet c op) := by
  obtain ⟨h1, h2, h3⟩ := hc
  rcases applySet_cases c op with h | h <;> rw [h]
  · refine ⟨?_, ?_, ?_⟩
    · rw [setBody_maxSize, h1]
    · have := setBody_size_le c op.key op.value op.ttl op.now
        (h1 ▸ hm) (h1 ▸ h2) h3
      rw [h1] at this
      exact this
    · exact setBody_wf c op.key op.value op.ttl op.now h3 hnow
  · exact ⟨h1, h2, h3⟩

theorem runSets_inv (m : Nat) (hm : 1 ≤ m) (ops : List (SetOp V)) (c : Cache V)
    (hc : CacheInv m c) (hnow : ∀ op ∈ ops, op.now < maxSafeInteger) :
    CacheInv m (runSets c ops) := by
  induction ops generalizing c with
  | nil => exact hc
  | cons op rest ih =>
    exact ih (applySet c op)
      (applySet_inv m hm c op hc (hnow op (List.mem_cons_self op rest)))
      (fun op' h => hnow op' (List.mem_cons_of_mem op h))

/-! ### Claim theorems -/

/-- C1: Capacity invariant.  For every sequence of `set` calls (valid keys and
TTLs, realistic call times) starting from a fresh cache whose configured
`maxSize` is at least 1 (as the constructor validation guarantees), the store
size after each call stays at most `maxSize`; and whenever a `set` of a key
with no live existing entry finds the store at `maxSize`, the eviction step it
runs removes exactly one entry, and the call's result is evict-then-insert. -/
theorem capacity_invariant (V : Type) (c0 : Cache V) (h0 : c0.store = [])
    (hmax : 1 ≤ c0.maxSize) (ops : List (SetOp V))
    (hnow : ∀ op ∈ ops, op.now < maxSafeInteger)
    (hvalid : ∀ op ∈ ops, validateKey op.key = .ok () ∧ validateTTLOpt op.ttl = .ok ()) :
    (∀ i : Nat, size (runSets c0 (ops.take i)) ≤ c0.maxSize) ∧
    (∀ i : Nat, ∀ op : SetOp V, ops[i]? = some op →
      c0.maxSize ≤ size (runSets c0 (ops.take i)) →
      isLive (runSets c0 (ops.take i)) op.key op.now = false →
      size (evictEntry (runSets c0 (ops.take i))) + 1 =
          size (runSets c0 (ops.take i)) ∧
      applySet (runSets c0 (ops.take i)) op =
        updateStats { evictEntry (runSets c0 (ops.take i)) with
          store := mapSet (evictEntry (runSets c0 (ops.take i))).store op.key
            (createEntry op.value
              (calculateExpiresAt op.ttl (runSets c0 (ops.take i)).ttl op.now)
              op.now) }) := by
  have hinv0 : CacheInv c0.maxSize c0 := by
    refine ⟨rfl, ?_, ?_⟩
    · simp [size, h0]
    · intro kv hkv
      rw [h0] at hkv
      simp at hkv
  have hinv : ∀ i : Nat, CacheInv c0.maxSize (runSets c0 (ops.take i)) := by
    intro i
    exact runSets_inv c0.maxSize hmax (ops.take i) c0 hinv0
      (fun op h => hnow op (List.take_subset i ops h))
  constructor
  · intro i
    exact (hinv i).2.1
  · intro i op hop hfull hlive
    have hmem : op ∈ ops := List.getElem?_mem hop
    have hsle : size (runSets c0 (ops.take i)) ≤ c0.maxSize := (hinv i).2.1
    have hlen : size (runSets c0 (ops.take i)) = c0.maxSize := le_antisymm hsle hfull
    have hne : (runSets c0 (ops.take i)).store ≠ [] := by
      intro hnil
      have hz : size (runSets c0 (ops.take i)) = 0 := by
        simp [size, hnil]
      omega
    have hwf : WFAccess (runSets c0 (ops.take i)) := (hinv i).2.2
    constructor
    · exact evictEntry_size (runSets c0 (ops.take i)) hne hwf
    · obtain ⟨hk, ht⟩ := hvalid op hmem
      have happ : applySet (runSets c0 (ops.take i)) op =
          setBody (runSets c0 (ops.take i)) op.key op.value op.ttl op.now := by
        unfold applySet
        rw [set_ok_of_valid _ op.key op.value op.ttl op.now hk ht]
      rw [happ, setBody_eq_insert _ op.key op.value op.ttl op.now hlive]
      have hcond : (runSets c0 (ops.take i)).maxSize ≤
          (runSets c0 (ops.take i)).store.length := by
        have h1 : (runSets c0 (ops.take i)).maxSize = c0.maxSize := (hinv i).1
        have h2 : (runSets c0 (ops.take i)).store.length = c0.maxSize := hlen
        omega
      rw [if_pos hcond]

/-- C1 witness: a concrete FIFO cache of capacity 1 receiving two inserts
stays within capacity, and the second insert evicts exactly one entry. -/
def c1exCache : Cache Nat :=
  { store := [], maxSize := 1, ttl := none, evictionPolicy := .FIFO,
    statsTracker := some { hits := 0, misses := 0, size := 0, maxSize := 1, evictions := 0 } }

/-- The two `set` calls used by the C1 witness. -/
def c1exOps : List (SetOp Nat) :=
  [{ key := "a", value := 1, ttl := none, now := 0 },
   { key := "b", value := 2, ttl := none, now := 1 }]

theorem capacity_invariant_witness :
    size (runSets c1exCache (c1exOps.take 2)) ≤ c1exCache.maxSize ∧
    size (evictEntry (runSets c1exCache (c1exOps.take 1))) + 1 =
      size (runSets c1exCache (c1exOps.take 1)) := by
  have h := capacity_invariant Nat c1exCache rfl (by decide) c1exOps
    (by decide) (by decide)
  refine ⟨h.1 2, ?_⟩
  have h2 := h.2 1 { key := "b", value := 2, ttl := none, now := 1 }
    (by decide) (by decide) (by decide)
  exact h2.1

/-- C8: cleanup is idempotent at a fixed time: a second `cleanup()` with the
same `now` and no operation in between removes nothing and returns 0. -/
theorem cleanup_idempotent (c : Cache V) (now : Int) :
    (cleanup (cleanup c now).2 now).1 = 0 ∧
    (cleanup (cleanup c now).2 now).2 = (cleanup c now).2 := by
  have clean_id : ∀ d : Cache V, (∀ kv ∈ d.store, isExpired kv.2 now = false) →
      cleanup d now = (0, d) := by
    intro d hd
    simp [cleanup, cleanupExpired_of_clean d.store now hd]
  by_cases hpos : 0 < (cleanupExpired c.store now).1
  · have h1 : (cleanup c now).2 =
        updateStats { c with store := (cleanupExpired c.store now).2 } := by
      simp [cleanup, hpos]
    have hclean : ∀ kv ∈ ((cleanup c now).2).store, isExpired kv.2 now = false := by
      rw [h1]
      simpa using cleanupExpired_snd_clean c.store now
    rw [clean_id _ hclean]
    exact ⟨rfl, rfl⟩
  · have hz : (cleanupExpired c.store now).1 = 0 := Nat.eq_zero_of_not_pos hpos
    have h1 : (cleanup c now).2 = c := by
      simp [cleanup, hz]
    have hclean : ∀ kv ∈ c.store, isExpired kv.2 now = false := by
      intro kv hkv
      have h2 := cleanupExpired_fst_zero c.store now hz
      rw [← h2] at hkv
      exact cleanupExpired_snd_clean c.store now kv hkv
    rw [h1, clean_id c hclean]
    exact ⟨rfl, rfl⟩

/-- C2 evaluation: the spec's `skipTouch` scenario on the code as written.
LRU cache of capacity 3; insert `a,b,c`; call `has('a', true)` — the
implementation's `has` takes no `skipTouch` parameter (only a TODO comment),
so the extra argument is ignored and the call touches `a` — then insert `d`.
The code evicts `b` and keeps `a`: `has('a')` is `true` and `has('b')` is
`false`, contradicting the claimed `has('a') == false`. -/
theorem has_touches_despite_skip_argument :
    (let c0 : Cache Nat :=
      { store := [], maxSize := 3, ttl := none, evictionPolicy := .LRU,
        statsTracker := none }
     let c3 := runSets c0
       [{ key := "a", value := 1, ttl := none, now := 0 },
        { key := "b", value := 2, ttl := none, now := 1 },
        { key := "c", value := 3, ttl := none, now := 2 }]
     let c4 := (has c3 "a" 3).2
     let c5 := applySet c4 { key := "d", value := 4, ttl := none, now := 4 }
     (has c5 "a" 5).1 = true ∧ (has c5 "b" 5).1 = false) := by
  exact ⟨by decide, by decide⟩

/-- C9: `resetStats` zeroes the `hits`, `misses` and `evictions` counters
while keeping the `size` and `maxSize` fields; with statistics disabled it is
a no-op and `getStats` still returns the disabled marker. -/
theorem resetStats_spec (V : Type) (c : Cache V) :
    (resetStats c).statsTracker =
      c.statsTracker.map (fun s =>
        { hits := 0, misses := 0, size := s.size, maxSize := s.maxSize,
          evictions := 0 }) ∧
    (c.statsTracker = none → resetStats c = c ∧ getStats (resetStats c) = none) := by
  constructor
  · cases h : c.statsTracker with
    | none => simp [resetStats, h]
    | some s => simp [resetStats, h]
  · intro h
    constructor
    · have h1 : resetStats c = { c with statsTracker := none } := by
        simp [resetStats, h]
      rw [h1, ← h]
    · simp [getStats, resetStats, h]

/-- C9 witness: on a stats-disabled cache, `resetStats` is the identity and
`getStats` stays `none`. -/
theorem resetStats_spec_witness :
    (let c : Cache Nat :=
      { store := [], maxSize := 5, ttl := none, evictionPolicy := .FIFO,
        statsTracker := none }
     resetStats c = c ∧ getStats (resetStats c) = none) := by
  exact (resetStats_spec Nat _).2 rfl

/-- C5: for an invalid key, `get` returns `undefined`, `has` and `del` return
`false`, all without an error and without touching the state; `set` with an
invalid key or a negative TTL raises an error and leaves the state exactly as
the caller had it. -/
theorem invalid_input_handling (V : Type) (c : Cache V) (k : String) (v : V)
    (ttl : Option Int) (now : Int) :
    (validateKey k ≠ .ok () →
      get c k now = (none, c) ∧ has c k now = (false, c) ∧ del c k = (false, c) ∧
      (∃ e, set c k v ttl now = .error e) ∧
      applySet c { key := k, value := v, ttl := ttl, now := now } = c) ∧
    (∀ t : Int, ttl = some t → t < 0 →
      (∃ e, set c k v ttl now = .error e) ∧
      applySet c { key := k, value := v, ttl := ttl, now := now } = c) := by
  constructor
  · intro hk
    have hke : ∃ e, validateKey k = .error e := by
      cases hv : validateKey k with
      | error e => exact ⟨e, rfl⟩
      | ok u =>
        cases u
        exact absurd hv hk
    obtain ⟨e, he⟩ := hke
    refine ⟨?_, ?_, ?_, ⟨e, ?_⟩, ?_⟩
    · simp [get, he]
    · simp [has, he]
    · simp [del, he]
    · simp [set, he]
    · simp [applySet, set, he]
  · intro t hts htneg
    have hvt : validateTTL t = .error .negativeTTL := by
      simp [validateTTL, htneg]
    cases hv : validateKey k with
    | error e =>
      refine ⟨⟨e, ?_⟩, ?_⟩
      · simp [set, hv]
      · simp [applySet, set, hv]
    | ok u =>
      cases u
      refine ⟨⟨.negativeTTL, ?_⟩, ?_⟩
      · simp [set, hv, hts, validateTTLOpt, hvt]
      · simp [applySet, set, hv, hts, validateTTLOpt, hvt]

/-- C5 witness: an empty key degrades `get`, and a negative TTL makes `set`
throw, on a concrete cache. -/
theorem invalid_input_handling_witness :
    (let c : Cache Nat :=
      { store := [], maxSize := 2, ttl := none, evictionPolicy := .FIFO,
        statsTracker := none }
     get c "" 0 = (none, c) ∧ (∃ e, set c "x" 1 (some (-5)) 0 = Except.error e)) := by
  refine ⟨?_, ?_⟩
  · exact ((invalid_input_handling Nat _ "" 1 none 0).1 (by decide)).1
  · exact ((invalid_input_handling Nat _ "x" 1 (some (-5)) 0).2 (-5) rfl (by decide)).1

/-- C3: under the LRU policy, a capacity eviction on a nonempty store (with
realistic access times) removes an entry whose `lastAccessedAt` is minimal
among all current entries, expired or not. -/
theorem lru_evicts_minimal (V : Type) (c : Cache V) (hp : c.evictionPolicy = .LRU)
    (hne : c.store ≠ [])
    (hwf : ∀ kv ∈ c.store, kv.2.lastAccessedAt < maxSafeInteger) :
    ∃ k e, getKeyToEvict c.store c.evictionPolicy = some k ∧ (k, e) ∈ c.store ∧
      (∀ kv ∈ c.store, e.lastAccessedAt ≤ kv.2.lastAccessedAt) ∧
      (evictEntry c).store = mapDelete c.store k := by
  obtain ⟨k, e, hk, hmem, hmin⟩ := getKeyToEvict_lru c.store hne hwf
  refine ⟨k, e, ?_, hmem, hmin, ?_⟩
  · rw [hp]
    exact hk
  · simp [evictEntry, hp, hk]

/-- C3 witness: on a concrete two-entry LRU store, the LRU victim exists and
is least recently accessed. -/
theorem lru_evicts_minimal_witness :
    (let c : Cache Nat :=
      { store :=
          [("a", { value := 1, expiresAt := none, createdAt := 0, lastAccessedAt := 7 }),
           ("b", { value := 2, expiresAt := some 1, createdAt := 0, lastAccessedAt := 3 })],
        maxSize := 2, ttl := none, evictionPolicy := .LRU, statsTracker := none }
     ∃ k e, getKeyToEvict c.store c.evictionPolicy = some k ∧ (k, e) ∈ c.store ∧
       (∀ kv ∈ c.store, e.lastAccessedAt ≤ kv.2.lastAccessedAt) ∧
       (evictEntry c).store = mapDelete c.store k) := by
  exact lru_evicts_minimal Nat _ rfl (by decide) (by decide)

/-- C7: `has` never changes the hit or miss counters on any input, while
`get` records exactly one hit on a live read, exactly one miss on an absent
or expired key, and nothing on an invalid key. -/
theorem has_get_statistics (V : Type) (c : Cache V) (k : String) (now : Int) :
    hitsOf (has c k now).2 = hitsOf c ∧
    missesOf (has c k now).2 = missesOf c ∧
    (validateKey k ≠ .ok () →
      hitsOf (get c k now).2 = hitsOf c ∧ missesOf (get c k now).2 = missesOf c) ∧
    (validateKey k = .ok () → mapGet c.store k = none →
      hitsOf (get c k now).2 = hitsOf c ∧
      missesOf (get c k now).2 = (missesOf c).map (fun n => n + 1)) ∧
    (validateKey k = .ok () → ∀ e, mapGet c.store k = some e → isExpired e now = true →
      hitsOf (get c k now).2 = hitsOf c ∧
      missesOf (get c k now).2 = (missesOf c).map (fun n => n + 1)) ∧
    (validateKey k = .ok () → ∀ e, mapGet c.store k = some e → isExpired e now = false →
      (get c k now).1 = some e.value ∧
      hitsOf (get c k now).2 = (hitsOf c).map (fun n => n + 1) ∧
      missesOf (get c k now).2 = missesOf c) := by
  have hhas : hitsOf (has c k now).2 = hitsOf c ∧
      missesOf (has c k now).2 = missesOf c := by
    cases hv : validateKey k with
    | error e => simp [has, hv]
    | ok u =>
      cases u
      cases hg : mapGet c.store k with
      | none => simp [has, hv, hg]
      | some entry =>
        cases he : isExpired entry now with
        | true =>
          cases hst : c.statsTracker <;>
            simp [has, hv, hg, he, hitsOf, missesOf, updateStats, hst]
        | false =>
          cases hst : c.statsTracker <;>
            simp [has, hv, hg, he, hitsOf, missesOf, hst]
  refine ⟨hhas.1, hhas.2, ?_, ?_, ?_, ?_⟩
  · intro hk
    have hke : ∃ e, validateKey k = .error e := by
      cases hv : validateKey k with
      | error e => exact ⟨e, rfl⟩
      | ok u =>
        cases u
        exact absurd hv hk
    obtain ⟨e, he⟩ := hke
    simp [get, he]
  · intro hv hg
    cases hst : c.statsTracker <;>
      simp [get, hv, hg, hitsOf, missesOf, recordMiss, hst]
  · intro hv e hg he
    cases hst : c.statsTracker <;>
      simp [get, hv, hg, he, hitsOf, missesOf, recordMiss, updateStats, hst]
  · intro hv e hg he
    cases hst : c.statsTracker <;>
      simp [get, hv, hg, he, hitsOf, missesOf, recordHit, hst]

/-- The cache used by the C7 witness: one live entry, statistics enabled. -/
def c7exCache : Cache Nat :=
  { store := [("a", { value := 7, expiresAt := none, createdAt := 0, lastAccessedAt := 0 })],
    maxSize := 2, ttl := none, evictionPolicy := .FIFO,
    statsTracker := some { hits := 0, misses := 0, size := 1, maxSize := 2, evictions := 0 } }

/-- C7 witness: on a concrete live hit, `has` leaves `hits` unchanged while
`get` increments it by one. -/
theorem has_get_statistics_witness :
    hitsOf (has c7exCache "a" 1).2 = hitsOf c7exCache ∧
    hitsOf (get c7exCache "a" 1).2 = (hitsOf c7exCache).map (fun n => n + 1) := by
  have h := has_get_statistics Nat c7exCache "a" 1
  refine ⟨h.1, ?_⟩
  have h6 := h.2.2.2.2.2 (by decide)
    { value := 7, expiresAt := none, createdAt := 0, lastAccessedAt := 0 }
    (by decide) (by decide)
  exact h6.2.1

theorem evictionsOf_recordEviction (c : Cache V) :
    evictionsOf (recordEviction c) = (evictionsOf c).map (fun n => n + 1) := by
  cases h : c.statsTracker <;> simp [evictionsOf, recordEviction, h]

/-- C6: the `evictions` counter is incremented exactly by a capacity-driven
eviction inside `set` (regardless of the victim being expired), and never by
`get`, `has`, `del`, `clear` or `cleanup`. -/
theorem evictions_counter_policy (V : Type) (c : Cache V) (k : String) (v : V)
    (ttl : Option Int) (now : Int) :
    (∀ c', set c k v ttl now = .ok c' →
      evictionsOf c' =
        if isLive c k now = false ∧ c.maxSize ≤ size c ∧
            (getKeyToEvict c.store c.evictionPolicy).isSome = true
        then (evictionsOf c).map (fun n => n + 1)
        else evictionsOf c) ∧
    evictionsOf (get c k now).2 = evictionsOf c ∧
    evictionsOf (has c k now).2 = evictionsOf c ∧
    evictionsOf (del c k).2 = evictionsOf c ∧
    evictionsOf (clear c) = evictionsOf c ∧
    evictionsOf (cleanup c now).2 = evictionsOf c := by
  refine ⟨?_, ?_, ?_, ?_, ?_, ?_⟩
  · intro c' hset
    cases hv : validateKey k with
    | error e => simp [set, hv] at hset
    | ok u =>
      cases u
      cases hvt : validateTTLOpt ttl with
      | error e => simp [set, hv, hvt] at hset
      | ok u2 =>
        cases u2
        rw [set_ok_of_valid c k v ttl now hv hvt] at hset
        injection hset with hc'
        subst hc'
        cases hl : isLive c k now with
        | true =>
          obtain ⟨old, hg, he⟩ := live_cases c k now hl
          rw [setBody_eq_update c k v ttl now old hg he]
          cases hst : c.statsTracker <;>
            simp [evictionsOf, updateStats, hst, hl]
        | false =>
          rw [setBody_eq_insert c k v ttl now hl]
          by_cases hfull : c.maxSize ≤ c.store.length
          · rw [if_pos hfull]
            cases hkev : getKeyToEvict c.store c.evictionPolicy with
            | some k0 =>
              cases hst : c.statsTracker <;>
                simp [evictEntry, hkev, evictionsOf, updateStats, recordEviction,
                  hst, hl, hfull, size]
            | none =>
              cases hst : c.statsTracker <;>
                simp [evictEntry, hkev, evictionsOf, updateStats, hst, hl, hfull, size]
          · rw [if_neg hfull]
            cases hst : c.statsTracker <;>
              simp [evictionsOf, updateStats, hst, hl, hfull, size]
  · cases hv : validateKey k with
    | error e => simp [get, hv]
    | ok u =>
      cases u
      cases hg : mapGet c.store k with
      | none =>
        cases hst : c.statsTracker <;>
          simp [get, hv, hg, evictionsOf, recordMiss, hst]
      | some entry =>
        cases he : isExpired entry now with
        | true =>
          cases hst : c.statsTracker <;>
            simp [get, hv, hg, he, evictionsOf, recordMiss, updateStats, hst]
        | false =>
          cases hst : c.statsTracker <;>
            simp [get, hv, hg, he, evictionsOf, recordHit, hst]
  · cases hv : validateKey k with
    | error e => simp [has, hv]
    | ok u =>
      cases u
      cases hg : mapGet c.store k with
      | none => simp [has, hv, hg]
      | some entry =>
        cases he : isExpired entry now with
        | true =>
          cases hst : c.statsTracker <;>
            simp [has, hv, hg, he, evictionsOf, updateStats, hst]
        | false =>
          cases hst : c.statsTracker <;>
            simp [has, hv, hg, he, evictionsOf, hst]
  · cases hv : validateKey k with
    | error e => simp [del, hv]
    | ok u =>
      cases u
      by_cases hck : containsKey c.store k = true
      · cases hst : c.statsTracker <;>
          simp [del, hv, hck, evictionsOf, updateStats, hst]
      · have hck' : containsKey c.store k = false := by
          cases hcc : containsKey c.store k
          · rfl
          · exact absurd hcc hck
        cases hst : c.statsTracker <;>
          simp [del, hv, hck', evictionsOf, hst]
  · cases hst : c.statsTracker <;> simp [clear, evictionsOf, updateStats, hst]
  · by_cases hpos : 0 < (cleanupExpired c.store now).1
    · cases hst : c.statsTracker <;>
        simp [cleanup, hpos, evictionsOf, updateStats, hst]
    · cases hst : c.statsTracker <;>
        simp [cleanup, hpos, evictionsOf, hst]

/-- The cache used by the C6 witness: a full capacity-1 FIFO cache whose only
entry is already expired, statistics enabled. -/
def c6exCache : Cache Nat :=
  { store := [("a", { value := 1, expiresAt := some 2, createdAt := 0, lastAccessedAt := 0 })],
    maxSize := 1, ttl := none, evictionPolicy := .FIFO,
    statsTracker := some { hits := 0, misses := 0, size := 1, maxSize := 1, evictions := 0 } }

/-- C6 witness: inserting a fresh key into the full cache evicts the (expired)
victim and increments `evictions` from 0 to 1. -/
theorem evictions_counter_policy_witness :
    evictionsOf (applySet c6exCache { key := "b", value := 2, ttl := none, now := 5 }) =
      some 1 := by
  have h := (evictions_counter_policy Nat c6exCache "b" 2 none 5).1
    (applySet c6exCache { key := "b", value := 2, ttl := none, now := 5 }) (by decide)
  rw [h]
  decide

theorem lru_reinsert_store (s : List (String × CacheEntry V)) (k : String)
    (e : CacheEntry V) (hnd : (s.map Prod.fst).Nodup) :
    mapSet (mapDelete (mapSet s k e) k) k e = mapDelete s k ++ [(k, e)] := by
  rw [mapDelete_mapSet_self]
  exact mapSet_append_of_not_contains _ _ _ (not_contains_mapDelete_of_nodup s k hnd)

/-- C10: a live `get` hit returns the stored value and leaves the size and the
set of stored keys unchanged; the only store changes are the entry's
`lastAccessedAt` and, under LRU, the key's move to the most-recent end (under
FIFO the key order is unchanged). -/
theorem get_hit_frame (V : Type) (c : Cache V) (k : String) (now : Int)
    (hv : validateKey k = .ok ()) (hnd : (c.store.map Prod.fst).Nodup)
    (e : CacheEntry V) (hg : mapGet c.store k = some e)
    (he : isExpired e now = false) :
    (get c k now).1 = some e.value ∧
    size (get c k now).2 = size c ∧
    (∀ k', containsKey (get c k now).2.store k' = containsKey c.store k') ∧
    (∀ k', k' ≠ k → mapGet (get c k now).2.store k' = mapGet c.store k') ∧
    mapGet (get c k now).2.store k = some { e with lastAccessedAt := now } ∧
    (c.evictionPolicy = .FIFO →
      (get c k now).2.store.map Prod.fst = c.store.map Prod.fst) ∧
    (c.evictionPolicy = .LRU →
      (get c k now).2.store =
        mapDelete c.store k ++ [(k, { e with lastAccessedAt := now })]) := by
  have hck : containsKey c.store k = true := by
    simp [containsKey, hg]
  have hret : (get c k now).1 = some e.value := by
    simp [get, hv, hg, he]
  by_cases hp : c.evictionPolicy = .LRU
  · have hstore : (get c k now).2.store =
        mapDelete c.store k ++ [(k, { e with lastAccessedAt := now })] := by
      simp only [get, hv, hg, he, Bool.false_eq_true, if_false, hp, if_pos rfl,
        recordHit_store]
      exact lru_reinsert_store c.store k { e with lastAccessedAt := now } hnd
    have hnotc := not_contains_mapDelete_of_nodup c.store k hnd
    refine ⟨hret, ?_, ?_, ?_, ?_, ?_, fun _ => hstore⟩
    · simp only [size, hstore, List.length_append, List.length_singleton]
      have := mapDelete_length_of_contains c.store k hck
      omega
    · intro k'
      by_cases hkk : k' = k
      · rw [hkk]
        rw [containsKey, hstore, mapGet_append_single_self _ _ _ hnotc]
        simp [hck]
      · rw [containsKey, hstore, mapGet_append_single_ne _ _ _ _ hkk,
          mapGet_mapDelete_ne _ _ _ hkk]
        rfl
    · intro k' hkk
      rw [hstore, mapGet_append_single_ne _ _ _ _ hkk,
        mapGet_mapDelete_ne _ _ _ hkk]
    · rw [hstore]
      exact mapGet_append_single_self _ _ _ hnotc
    · intro hf
      rw [hf] at hp
      exact EvictionPolicy.noConfusion hp
  · have hstore : (get c k now).2.store =
        mapSet c.store k { e with lastAccessedAt := now } := by
      simp only [get, hv, hg, he, Bool.false_eq_true, if_false, hp, recordHit_store]
    refine ⟨hret, ?_, ?_, ?_, ?_, ?_, ?_⟩
    · simp only [size, hstore]
      exact mapSet_length_of_contains c.store k _ hck
    · intro k'
      by_cases hkk : k' = k
      · rw [hkk, containsKey, hstore, mapGet_mapSet_self]
        simp [hck]
      · rw [containsKey, hstore, mapGet_mapSet_ne _ _ _ _ hkk]
        rfl
    · intro k' hkk
      rw [hstore, mapGet_mapSet_ne _ _ _ _ hkk]
    · rw [hstore]
      exact mapGet_mapSet_self _ _ _
    · intro _
      rw [hstore]
      exact keys_mapSet_of_contains c.store k _ hck
    · intro hlru
      exact absurd hlru hp

/-- The cache used by the C10 witness: two live entries, LRU policy. -/
def c10exCache : Cache Nat :=
  { store :=
      [("a", { value := 1, expiresAt := none, createdAt := 0, lastAccessedAt := 0 }),
       ("b", { value := 2, expiresAt := none, createdAt := 1, lastAccessedAt := 1 })],
    maxSize := 3, ttl := none, evictionPolicy := .LRU, statsTracker := none }

/-- C10 witness: a live `get` of key `a` on a concrete LRU cache returns the
value, keeps the size, and moves `a` to the most-recent end. -/
theorem get_hit_frame_witness :
    (get c10exCache "a" 5).1 = some 1 ∧
    size (get c10exCache "a" 5).2 = size c10exCache ∧
    (get c10exCache "a" 5).2.store =
      mapDelete c10exCache.store "a" ++
        [("a", { value := 1, expiresAt := none, createdAt := 0, lastAccessedAt := 5 })] := by
  have h := get_hit_frame Nat c10exCache "a" 5 (by decide) (by decide)
    { value := 1, expiresAt := none, createdAt := 0, lastAccessedAt := 0 }
    (by decide) (by decide)
  exact ⟨h.1, h.2.1, h.2.2.2.2.2.2 rfl⟩

/-- C4: a `set` of a key holding a live entry is an update: no eviction, size
unchanged, `createdAt` preserved, `expiresAt` recomputed, `lastAccessedAt`
set to now, and under LRU the key moves to the most-recent end; with the
existing entry expired, the call is an insert with a fresh
`createdAt = lastAccessedAt = now` whose eviction check fires at capacity. -/
theorem set_update_semantics (V : Type) (c : Cache V) (k : String) (v : V)
    (ttl : Option Int) (now : Int)
    (hk : validateKey k = .ok ()) (ht : validateTTLOpt ttl = .ok ())
    (hnd : (c.store.map Prod.fst).Nodup)
    (old : CacheEntry V) (hg : mapGet c.store k = some old) :
    set c k v ttl now = .ok (setBody c k v ttl now) ∧
    (isExpired old now = false →
      size (setBody c k v ttl now) = size c ∧
      evictionsOf (setBody c k v ttl now) = evictionsOf c ∧
      mapGet (setBody c k v ttl now).store k =
        some { value := v, expiresAt := calculateExpiresAt ttl c.ttl now,
               createdAt := old.createdAt, lastAccessedAt := now } ∧
      (c.evictionPolicy = .LRU →
        (setBody c k v ttl now).store =
          mapDelete c.store k ++
            [(k, { value := v, expiresAt := calculateExpiresAt ttl c.ttl now,
                   createdAt := old.createdAt, lastAccessedAt := now })])) ∧
    (isExpired old now = true →
      mapGet (setBody c k v ttl now).store k =
        some (createEntry v (calculateExpiresAt ttl c.ttl now) now) ∧
      (createEntry v (calculateExpiresAt ttl c.ttl now) now).createdAt = now ∧
      (createEntry v (calculateExpiresAt ttl c.ttl now) now).lastAccessedAt = now ∧
      (c.maxSize ≤ size c → (getKeyToEvict c.store c.evictionPolicy).isSome = true →
        evictionsOf (setBody c k v ttl now) = (evictionsOf c).map (fun n => n + 1))) := by
  have hck : containsKey c.store k = true := by
    simp [containsKey, hg]
  refine ⟨set_ok_of_valid c k v ttl now hk ht, ?_, ?_⟩
  · intro he
    have hupd := setBody_eq_update c k v ttl now old hg he
    have hnotc := not_contains_mapDelete_of_nodup c.store k hnd
    refine ⟨?_, ?_, ?_, ?_⟩
    · rw [hupd]
      simp only [size, updateStats_store]
      by_cases hp : c.evictionPolicy = .LRU
      · rw [if_pos hp]
        rw [mapSet_append_of_not_contains _ _ _ hnotc]
        simp only [List.length_append, List.length_singleton]
        have := mapDelete_length_of_contains c.store k hck
        omega
      · rw [if_neg hp]
        exact mapSet_length_of_contains c.store k _ hck
    · rw [hupd]
      cases hst : c.statsTracker <;> simp [evictionsOf, updateStats, hst]
    · rw [hupd]
      simp only [updateStats_store]
      exact mapGet_mapSet_self _ _ _
    · intro hp
      rw [hupd]
      simp only [updateStats_store]
      rw [if_pos hp]
      exact mapSet_append_of_not_contains _ _ _ hnotc
  · intro he
    have hni : isLive c k now = false := by
      simp [isLive, hg, he]
    have hins := setBody_eq_insert c k v ttl now hni
    refine ⟨?_, rfl, rfl, ?_⟩
    · rw [hins]
      simp only [updateStats_store]
      exact mapGet_mapSet_self _ _ _
    · intro hfull hsome
      obtain ⟨k0, hkev⟩ := Option.isSome_iff_exists.mp hsome
      have hfull' : c.maxSize ≤ c.store.length := hfull
      rw [hins]
      rw [if_pos hfull']
      cases hst : c.statsTracker <;>
        simp [evictEntry, hkev, evictionsOf, updateStats, recordEviction, hst]

/-- The cache used by the C4 witness: one live entry under LRU. -/
def c4exCache : Cache Nat :=
  { store :=
      [("a", { value := 1, expiresAt := none, createdAt := 0, lastAccessedAt := 0 }),
       ("b", { value := 2, expiresAt := none, createdAt := 1, lastAccessedAt := 1 })],
    maxSize := 2, ttl := none, evictionPolicy := .LRU, statsTracker := none }

/-- C4 witness: overwriting live key `a` with a TTL keeps the size and the
original `createdAt`, recomputes `expiresAt`, and moves `a` to the end. -/
theorem set_update_semantics_witness :
    size (setBody c4exCache "a" 9 (some 100) 50) = size c4exCache ∧
    mapGet (setBody c4exCache "a" 9 (some 100) 50).store "a" =
      some { value := 9, expiresAt := some 150, createdAt := 0, lastAccessedAt := 50 } := by
  have h := set_update_semantics Nat c4exCache "a" 9 (some 100) 50
    (by decide) (by decide) (by decide)
    { value := 1, expiresAt := none, createdAt := 0, lastAccessedAt := 0 }
    (by decide)
  have h2 := h.2.1 (by decide)
  exact ⟨h2.1, h2.2.2.1⟩

end RuntimeMemoryCache
